import Mathlib

/-!
Verification of the scheduling kernel of `eva` (`src/scheduling/mod.rs`).

Time points (`chrono::DateTime<Utc>`) and spans (`chrono::Duration`) are
modelled as integers (a fixed sub-second unit; `chrono` arithmetic is exact
integer arithmetic, so the unit is irrelevant).  The shared task handles
(`Rc<Task>`) are modelled as a task value tagged with the index it received
when the facade wrapped the input list: `Rc` identity (what the store keys
payloads by) is exactly this tag, since the facade calls `Rc::new` once per
input task.

The `schedule_tree` module of the repository (the interval placement store)
is not part of the sources; it is modelled from the specification, see the
`Modelled from the spec:` doc comments below.  Everything else is translated
directly from `src/scheduling/mod.rs`.
-/

namespace Eva

open scoped List

/-- The `Task` record from the repository (scheduling-relevant fields; `content`
carried along for value equality). `deadline` is a time point, `duration`
a time span, `importance` an integer rank. -/
structure Task where
  id : Nat
  content : String
  deadline : Int
  duration : Int
  importance : Int
deriving DecidableEq, Repr

/-- A shared handle `Rc<Task>`: the task value together with the identity
of the `Rc` allocation (the position in the wrapped task vector of the facade). -/
structure RcTask where
  idx : Nat
  task : Task
deriving DecidableEq, Repr

/-- An `Entry` of the schedule tree: a placed interval `[start, stop)` holding
a payload handle.  (`stop` embeds the source field `end`, a Lean keyword.) -/
structure Entry where
  start : Int
  stop : Int
  data : RcTask
deriving DecidableEq, Repr

/-- The `ErrorKind` sum from the `error_chain!` block of `src/scheduling/mod.rs`. -/
inductive ErrorKind where
  | DeadlineMissed (task : Task) (already_missed : Bool)
  | NotEnoughTime (task : Task)
  | Internal (more_info : String)
deriving DecidableEq, Repr

/-- The `SchedulingStrategy` selector from the configuration module. -/
inductive SchedulingStrategy where
  | Importance
  | Urgency
deriving DecidableEq, Repr

deriving instance DecidableEq for Except

/-- The constant `SCHEDULE_DELAY = Duration::minutes(1)`, in the nanosecond unit. -/
def SCHEDULE_DELAY : Int := 60000000000

/-- The result record `ScheduledTask { task, when }`. -/
structure ScheduledTask where
  task : Task
  when : Int
deriving DecidableEq, Repr

/-! ## The interval placement store (`schedule_tree`)

Modelled from the spec: the `schedule_tree` module is not among the
sources.  The store is an ordered list of non-overlapping entries kept in
ascending start order; the operations below follow §4.1 of the
specification word for word. -/

/-- Does `x` respect an optional lower bound? -/
def lowOk (lb : Option Int) (x : Int) : Bool :=
  match lb with
  | none => true
  | some b => decide (b ≤ x)

/-- Does `x` respect an optional upper bound? -/
def highOk (ub : Option Int) (x : Int) : Bool :=
  match ub with
  | none => true
  | some b => decide (x ≤ b)

/-- Modelled from the spec: the gap scan of `schedule_close_before`.
Walks the entries (ascending); prefers the latest eligible gap, so the
recursive result (later gaps) wins over the gap just before the current
head entry.  `lo` is the lower edge of that gap: the stop of the previous entry, or `none` before the first entry.  The candidate end in a gap
bounded above by the start `s` of the next entry is `min deadline s`;
unbounded gaps use `deadline` itself. -/
def closeBeforeAux (deadline dur : Int) (lb : Option Int) (d : RcTask) :
    List Entry → Option Int → Option (List Entry)
  | [], lo =>
      if lowOk lo (deadline - dur) && lowOk lb (deadline - dur) then
        some [⟨deadline - dur, deadline, d⟩]
      else
        none
  | e :: rest, lo =>
      match closeBeforeAux deadline dur lb d rest (some e.stop) with
      | some l => some (e :: l)
      | none =>
          let cand := min deadline e.start
          if lowOk lo (cand - dur) && lowOk lb (cand - dur) then
            some (⟨cand - dur, cand, d⟩ :: e :: rest)
          else
            none

/-- Modelled from the spec: `schedule_close_before(deadline, duration,
lower_bound, payload)` — place as late as possible with end at or before
`deadline`, start at or after the lower bound.  `some` is the updated
store (the source mutates and returns `true`); `none` embeds the
`false` return of the source, store unchanged. -/
def schedule_close_before (deadline dur : Int) (lb : Option Int) (d : RcTask)
    (l : List Entry) : Option (List Entry) :=
  closeBeforeAux deadline dur lb d l none

/-- Modelled from the spec: the gap scan of `schedule_close_after`.
Walks the entries (ascending), taking the earliest gap at or after the
accumulated earliest admissible start `s` that is wide enough and whose
resulting end respects the upper bound. -/
def closeAfterAux (dur : Int) (ub : Option Int) (d : RcTask) :
    List Entry → Int → Option (List Entry)
  | [], s =>
      if highOk ub (s + dur) then some [⟨s, s + dur, d⟩] else none
  | e :: rest, s =>
      if decide (s + dur ≤ e.start) && highOk ub (s + dur) then
        some (⟨s, s + dur, d⟩ :: e :: rest)
      else
        (closeAfterAux dur ub d rest (max s e.stop)).map (e :: ·)

/-- Modelled from the spec: `schedule_close_after(start, duration,
upper_bound, payload)` — place as early as possible at or after `start`,
with the resulting end not exceeding the upper bound. -/
def schedule_close_after (start dur : Int) (ub : Option Int) (d : RcTask)
    (l : List Entry) : Option (List Entry) :=
  closeAfterAux dur ub d l start

/-- Modelled from the spec: `unschedule(payload_key)` removes and returns
the entry whose payload identity matches the key. -/
def unschedule (key : Nat) : List Entry → Option (Entry × List Entry)
  | [] => none
  | e :: rest =>
      if e.data.idx = key then
        some (e, rest)
      else
        (unschedule key rest).map (fun p => (p.1, e :: p.2))

/-- Modelled from the spec: `when_scheduled(payload_key)` — read-only
lookup of the current start time of the entry holding the key. -/
def when_scheduled (key : Nat) : List Entry → Option Int
  | [] => none
  | e :: rest => if e.data.idx = key then some e.start else when_scheduled key rest

/-! ## The placement algorithms (`src/scheduling/mod.rs`) -/

/-- The sort key relation of phase 1 of `schedule_according_to_importance`:
`tasks.sort_by_key(|task| (task.importance, start.signed_duration_since(task.deadline)))`,
i.e. ascending lexicographic on `(importance, start - deadline)`.  The
sort itself is embedded as `List.insertionSort`, which computes the same
list as the Rust `sort_by_key` (both are stable sorts by a total key
order). -/
def impLe (start : Int) (a b : RcTask) : Prop :=
  a.task.importance < b.task.importance ∨
    (a.task.importance = b.task.importance ∧
      start - a.task.deadline ≤ start - b.task.deadline)

instance (start : Int) : DecidableRel (impLe start) := fun a b =>
  inferInstanceAs (Decidable (a.task.importance < b.task.importance ∨
    (a.task.importance = b.task.importance ∧
      start - a.task.deadline ≤ start - b.task.deadline)))

instance (start : Int) : IsTotal RcTask (impLe start) :=
  ⟨fun a b => by unfold impLe; omega⟩

instance (start : Int) : IsTrans RcTask (impLe start) :=
  ⟨fun a b c hab hbc => by unfold impLe at *; omega⟩

/-- The sort key relation of `schedule_according_to_myrjam`:
`tasks.sort_by_key(|task| task.importance)`. -/
def myrLe (a b : RcTask) : Prop :=
  a.task.importance ≤ b.task.importance

instance : DecidableRel myrLe := fun a b =>
  inferInstanceAs (Decidable (a.task.importance ≤ b.task.importance))

instance : IsTotal RcTask myrLe := ⟨fun a b => by unfold myrLe; omega⟩

instance : IsTrans RcTask myrLe := ⟨fun a b c hab hbc => by unfold myrLe at *; omega⟩

/-- Phase 1, shared verbatim by both algorithms: walk the (sorted) tasks;
an infeasible deadline fails with `DeadlineMissed` (the flag recording
whether the deadline is already at or before the phase start); otherwise
pack the task as close to its deadline as possible, failing with
`NotEnoughTime` when no gap fits. -/
def phase1 (start : Int) : List RcTask → List Entry → Except ErrorKind (List Entry)
  | [], l => .ok l
  | t :: rest, l =>
      if t.task.deadline ≤ start + t.task.duration then
        .error (.DeadlineMissed t.task (decide (t.task.deadline ≤ start)))
      else
        match schedule_close_before t.task.deadline t.task.duration (some start) t l with
        | none => .error (.NotEnoughTime t.task)
        | some l => phase1 start rest l

/-- One pass of phase 2 of `schedule_according_to_importance`: the `for`
loop over `tasks.iter().rev()`.  Unschedule each task, re-place it as
early as possible bounded by its previous end, and report `true` (the
`changed` flag) as soon as one placement moved — the source `break`s out
of the pass at that point. -/
def importancePass (start : Int) : List RcTask → List Entry →
    Except ErrorKind (List Entry × Bool)
  | [], l => .ok (l, false)
  | t :: rest, l =>
      match unschedule t.idx l with
      | none => .error (.Internal ("I could not unschedule a task"))
      | some (e, l1) =>
          match schedule_close_after start t.task.duration (some e.stop) e.data l1 with
          | none => .error (.Internal ("I could not reschedule a task"))
          | some l2 =>
              match when_scheduled t.idx l2 with
              | none =>
                  .error (.Internal ("I could not find a task that was just scheduled"))
              | some ns =>
                  if e.start ≠ ns then .ok (l2, true) else importancePass start rest l2

/-- The `while changed` fixed-point loop of phase 2 of
`schedule_according_to_importance`, with explicit fuel: the source has no
iteration bound, so exhausting the fuel (`none`) models "the loop has not
exited within `fuel` passes". -/
def importanceLoop (start : Int) (revTasks : List RcTask) :
    Nat → List Entry → Option (Except ErrorKind (List Entry))
  | 0, _ => none
  | fuel + 1, l =>
      match importancePass start revTasks l with
      | .error e => some (.error e)
      | .ok (l, false) => some (.ok l)
      | .ok (l, true) => importanceLoop start revTasks fuel l

/-- Embeds `schedule_according_to_importance(start, tasks)`: sort, run phase 1,
then run the phase-2 fixed-point loop (skipped when the tree is empty,
mirroring `let mut changed = !self.is_empty()`). -/
def schedule_according_to_importance (fuel : Nat) (start : Int)
    (tasks : List RcTask) : Option (Except ErrorKind (List Entry)) :=
  let sorted := List.insertionSort (impLe start) tasks
  match phase1 start sorted [] with
  | .error e => some (.error e)
  | .ok l =>
      if l.isEmpty then some (.ok l)
      else importanceLoop start sorted.reverse fuel l

/-- Phase 2 of `schedule_according_to_myrjam`: one pass over a snapshot of
the entries of the store in ascending start order, unscheduling each and
re-placing it as early as possible bounded by its previous end. -/
def myrjamPass (start : Int) : List Entry → List Entry → Except ErrorKind (List Entry)
  | [], l => .ok l
  | entry :: rest, l =>
      match unschedule entry.data.idx l with
      | none => .error (.Internal ("I could not unschedule a task"))
      | some (e, l1) =>
          match schedule_close_after start e.data.task.duration (some e.stop) e.data l1 with
          | none => .error (.Internal ("I could not reschedule a task"))
          | some l2 => myrjamPass start rest l2

/-- Embeds `schedule_according_to_myrjam(start, tasks)`: sort by importance, run
phase 1, snapshot the entries, then the single compacting pass. -/
def schedule_according_to_myrjam (start : Int) (tasks : List RcTask) :
    Except ErrorKind (List Entry) :=
  match phase1 start (List.insertionSort myrLe tasks) [] with
  | .error e => .error e
  | .ok l => myrjamPass start l l

/-- The `Rc::new` wrapping of the input tasks, tagging each with its
allocation identity (its position). -/
def wrapTasks : Nat → List Task → List RcTask
  | _, [] => []
  | i, t :: rest => ⟨i, t⟩ :: wrapTasks (i + 1) rest

/-- Embeds `Schedule::from_tree`: drain the store in ascending start order into
`ScheduledTask` values. -/
def from_tree (l : List Entry) : List ScheduledTask :=
  l.map (fun e => ⟨e.data.task, e.start⟩)

/-- Embeds `Schedule::schedule(start, tasks, strategy)`: add the safety delay,
wrap the tasks, dispatch on the strategy, convert the final store.  The
`fuel` bounds the phase-2 loop of the importance strategy (which the
source runs unboundedly); the urgency strategy ignores it. -/
def schedule (fuel : Nat) (start : Int) (tasks : List Task)
    (strategy : SchedulingStrategy) : Option (Except ErrorKind (List ScheduledTask)) :=
  let start := start + SCHEDULE_DELAY
  let rcTasks := wrapTasks 0 tasks
  match strategy with
  | .Importance =>
      (schedule_according_to_importance fuel start rcTasks).map (·.map from_tree)
  | .Urgency =>
      some ((schedule_according_to_myrjam start rcTasks).map from_tree)

/-! ## Store invariants and soundness of the operations -/

/-- The separation order on entries: `a` ends at or before `b` starts. -/
def EntryLE (a b : Entry) : Prop := a.stop ≤ b.start

instance : DecidableRel EntryLE := fun a b => inferInstanceAs (Decidable (a.stop ≤ b.start))

/-- The payload handles currently held by the store. -/
def payloads (l : List Entry) : List RcTask := l.map Entry.data

/-- All invariants of the interval placement store (spec §3), relative to
the phase start `base`:  entries are separated and in ascending order,
each spans exactly the (non-negative) duration of its task, none starts
before `base`, none ends past the deadline of its task, and payload identities are
distinct. -/
structure Inv (base : Int) (l : List Entry) : Prop where
  pw : l.Pairwise EntryLE
  width : ∀ e ∈ l, e.stop = e.start + e.data.task.duration
  nonneg : ∀ e ∈ l, e.start ≤ e.stop
  lb : ∀ e ∈ l, base ≤ e.start
  dl : ∀ e ∈ l, e.stop ≤ e.data.task.deadline
  nodup : (l.map (fun e => e.data.idx)).Nodup

/-- Termination measure of the phase-2 fixed point: the total distance of
all entry starts from the phase start. -/
def treeMeasure (base : Int) (l : List Entry) : Nat :=
  (l.map (fun e => (e.start - base).toNat)).sum

/-- A store segment is packed from `b`: entries sit back-to-back with no
gap, each of positive width. -/
def Packed : Int → List Entry → Prop
  | _, [] => True
  | b, e :: r => e.start = b ∧ e.start < e.stop ∧ Packed e.stop r

/-- The fill level after a packed segment starting at `b`. -/
def packEnd : Int → List Entry → Int
  | b, [] => b
  | _, e :: r => packEnd e.stop r

/-- Re-pack a list of entries contiguously from `b`, keeping their order
and payloads and giving each the duration of its task. -/
def packList : Int → List Entry → List Entry
  | _, [] => []
  | b, e :: r =>
      ⟨b, b + e.data.task.duration, e.data⟩ :: packList (b + e.data.task.duration) r

theorem lowOk_some {b x : Int} : lowOk (some b) x = true ↔ b ≤ x := by
  simp [lowOk]

theorem highOk_some {b x : Int} : highOk (some b) x = true ↔ x ≤ b := by
  simp [highOk]

/-- Soundness of the close-before gap scan: a successful call inserts a
single new entry of width `dur` ending at or before the deadline into a
gap, leaving all other entries untouched. -/
theorem closeBeforeAux_sound {deadline dur : Int} {lb : Option Int} {d : RcTask} :
    ∀ {l : List Entry} {lo : Option Int} {l' : List Entry},
      closeBeforeAux deadline dur lb d l lo = some l' →
      l.Pairwise EntryLE →
      (∀ e ∈ l, e.start ≤ e.stop) →
      (∀ e ∈ l, lowOk lo e.start = true) →
      ∃ l₁ x l₂, l = l₁ ++ l₂ ∧ l' = l₁ ++ x :: l₂ ∧
        x.data = d ∧ x.stop = x.start + dur ∧ x.stop ≤ deadline ∧
        lowOk lb x.start = true ∧ lowOk lo x.start = true ∧
        (∀ y ∈ l₁, y.stop ≤ x.start) ∧ (∀ y ∈ l₂, x.stop ≤ y.start)
  | [], lo, l', h, _, _, _ => by
      simp only [closeBeforeAux] at h
      split at h
      · rename_i hcond
        rw [Bool.and_eq_true] at hcond
        refine ⟨[], ⟨deadline - dur, deadline, d⟩, [], rfl, (Option.some_inj.mp h).symm,
          rfl, by simp, by simp, hcond.2, hcond.1, by simp, by simp⟩
      · exact absurd h (by simp)
  | e :: rest, lo, l', h, hpw, hnn, hlo => by
      simp only [closeBeforeAux] at h
      cases hrec : closeBeforeAux deadline dur lb d rest (some e.stop) with
      | some lr =>
          rw [hrec] at h
          have hl' : l' = e :: lr := (Option.some_inj.mp h).symm
          have hpw' := List.pairwise_cons.mp hpw
          obtain ⟨r₁, x, r₂, hre, hlr, hxd, hxw, hxdl, hxlb, hxlo, h₁, h₂⟩ :=
            closeBeforeAux_sound hrec hpw'.2 (fun y hy => hnn y (by simp [hy]))
              (fun y hy => by simpa [lowOk] using hpw'.1 y hy)
          refine ⟨e :: r₁, x, r₂, by simp [hre], by simp [hl', hlr], hxd, hxw, hxdl,
            hxlb, ?_, ?_, h₂⟩
          · cases lo with
            | none => simp [lowOk]
            | some b =>
                have hb : b ≤ e.start := lowOk_some.mp (hlo e (by simp))
                have : e.stop ≤ x.start := lowOk_some.mp hxlo
                have := hnn e (by simp)
                exact lowOk_some.mpr (by omega)
          · intro y hy
            rcases List.mem_cons.mp hy with hy | hy
            · subst hy
              exact lowOk_some.mp hxlo
            · exact h₁ y hy
      | none =>
          rw [hrec] at h
          simp only at h
          split at h
          · rename_i hcond
            rw [Bool.and_eq_true] at hcond
            have hl' : l' = ⟨min deadline e.start - dur, min deadline e.start, d⟩ :: e :: rest :=
              (Option.some_inj.mp h).symm
            have hpw' := List.pairwise_cons.mp hpw
            refine ⟨[], ⟨min deadline e.start - dur, min deadline e.start, d⟩, e :: rest,
              rfl, by simp [hl'], rfl, by simp, by simp [min_le_left],
              hcond.2, hcond.1, by simp, ?_⟩
            intro y hy
            rcases List.mem_cons.mp hy with hy | hy
            · subst hy
              simp [min_le_right]
            · have h1 : e.stop ≤ y.start := hpw'.1 y hy
              have h2 := hnn e (by simp)
              have h3 : min deadline e.start ≤ e.start := min_le_right _ _
              simp only
              omega
          · exact absurd h (by simp)

/-- Soundness of the close-after gap scan: a successful call inserts a
single new entry of width `dur` starting at or after `s`, with its end
respecting the upper bound, into a gap, leaving all other entries
untouched. -/
theorem closeAfterAux_sound {dur : Int} {ub : Option Int} {d : RcTask} :
    ∀ {l : List Entry} {s : Int} {l' : List Entry},
      closeAfterAux dur ub d l s = some l' →
      l.Pairwise EntryLE →
      (∀ e ∈ l, e.start ≤ e.stop) →
      ∃ l₁ x l₂, l = l₁ ++ l₂ ∧ l' = l₁ ++ x :: l₂ ∧
        x.data = d ∧ x.stop = x.start + dur ∧ s ≤ x.start ∧
        highOk ub x.stop = true ∧
        (∀ y ∈ l₁, y.stop ≤ x.start) ∧ (∀ y ∈ l₂, x.stop ≤ y.start)
  | [], s, l', h, _, _ => by
      simp only [closeAfterAux] at h
      split at h
      · rename_i hcond
        exact ⟨[], ⟨s, s + dur, d⟩, [], rfl, (Option.some_inj.mp h).symm,
          rfl, rfl, le_refl s, hcond, by simp, by simp⟩
      · exact absurd h (by simp)
  | e :: rest, s, l', h, hpw, hnn => by
      simp only [closeAfterAux] at h
      split at h
      · rename_i hcond
        rw [Bool.and_eq_true, decide_eq_true_eq] at hcond
        have hpw' := List.pairwise_cons.mp hpw
        refine ⟨[], ⟨s, s + dur, d⟩, e :: rest, rfl, (Option.some_inj.mp h).symm,
          rfl, rfl, le_refl s, hcond.2, by simp, ?_⟩
        intro y hy
        rcases List.mem_cons.mp hy with hy | hy
        · subst hy
          exact hcond.1
        · have h1 : e.stop ≤ y.start := hpw'.1 y hy
          have h2 := hnn e (by simp)
          have h3 := hcond.1
          simp only
          omega
      · rw [Option.map_eq_some'] at h
        obtain ⟨lr, hrec, hl'⟩ := h
        have hpw' := List.pairwise_cons.mp hpw
        obtain ⟨r₁, x, r₂, hre, hlr, hxd, hxw, hxs, hxub, h₁, h₂⟩ :=
          closeAfterAux_sound hrec hpw'.2 (fun y hy => hnn y (by simp [hy]))
        refine ⟨e :: r₁, x, r₂, by simp [hre], by simp [hl'.symm, hlr], hxd, hxw,
          le_trans (le_max_left _ _) hxs, hxub, ?_, h₂⟩
        intro y hy
        rcases List.mem_cons.mp hy with hy | hy
        · subst hy
          exact le_trans (le_max_right _ _) hxs
        · exact h₁ y hy

/-- Soundness of `unschedule`: a successful removal splits the store
around the unique first entry carrying the key. -/
theorem unschedule_sound {k : Nat} :
    ∀ {l : List Entry} {e : Entry} {l' : List Entry},
      unschedule k l = some (e, l') →
      ∃ l₁ l₂, l = l₁ ++ e :: l₂ ∧ l' = l₁ ++ l₂ ∧ e.data.idx = k ∧
        ∀ y ∈ l₁, y.data.idx ≠ k
  | [], e, l', h => absurd h (by simp [unschedule])
  | a :: rest, e, l', h => by
      simp only [unschedule] at h
      split at h
      · rename_i heq
        obtain ⟨he, hl'⟩ := Prod.mk.injEq .. ▸ Option.some_inj.mp h
        exact ⟨[], rest, by simp [he.symm], by simp [hl'.symm], he ▸ heq, by simp⟩
      · rename_i hne
        rw [Option.map_eq_some'] at h
        obtain ⟨⟨e₀, l₀⟩, hrec, hpair⟩ := h
        obtain ⟨he, hl'⟩ := Prod.mk.injEq .. ▸ hpair
        obtain ⟨l₁, l₂, hsplit, hrest, hk, hmiss⟩ := unschedule_sound hrec
        refine ⟨a :: l₁, l₂, by simp [hsplit, he.symm], by simp [hl'.symm, hrest], he ▸ hk, ?_⟩
        intro y hy
        rcases List.mem_cons.mp hy with hy | hy
        · subst hy
          exact hne
        · exact hmiss y hy

theorem when_scheduled_eq {k : Nat} :
    ∀ {l₁ : List Entry} {x : Entry} {l₂ : List Entry}, x.data.idx = k →
      (∀ y ∈ l₁, y.data.idx ≠ k) → when_scheduled k (l₁ ++ x :: l₂) = some x.start
  | [], x, l₂, hx, _ => by simp [when_scheduled, hx]
  | a :: rest, x, l₂, hx, hmiss => by
      have ha : a.data.idx ≠ k := hmiss a (by simp)
      simp only [List.cons_append, when_scheduled, ha, if_false]
      exact when_scheduled_eq hx (fun y hy => hmiss y (by simp [hy]))

theorem when_scheduled_some {k : Nat} :
    ∀ {l : List Entry} {s : Int}, when_scheduled k l = some s →
      ∃ e ∈ l, e.data.idx = k ∧ e.start = s
  | [], s, h => absurd h (by simp [when_scheduled])
  | a :: rest, s, h => by
      simp only [when_scheduled] at h
      split at h
      · exact ⟨a, by simp, by assumption, Option.some_inj.mp h⟩
      · obtain ⟨e, he, hk, hs⟩ := when_scheduled_some h
        exact ⟨e, by simp [he], hk, hs⟩

/-- Under distinct payload identities, `when_scheduled` reads off the
start of the (unique) entry holding the key. -/
theorem when_scheduled_of_mem {k : Nat} {l : List Entry} {e : Entry}
    (hnd : (l.map (fun e => e.data.idx)).Nodup) (he : e ∈ l) (hk : e.data.idx = k) :
    when_scheduled k l = some e.start := by
  obtain ⟨l₁, l₂, rfl⟩ := List.append_of_mem he
  refine when_scheduled_eq hk ?_
  intro y hy
  rw [List.map_append, List.map_cons, List.nodup_append] at hnd
  intro hyk
  exact hnd.2.2 (List.mem_map_of_mem _ hy) (by simp [hyk, hk.symm])

/-- Inserting an entry with a foreign key between `l₁` and `l₂` does not
affect lookup of `k`. -/
theorem when_scheduled_skip {k : Nat} :
    ∀ {l₁ : List Entry} {x : Entry} {l₂ : List Entry}, x.data.idx ≠ k →
      when_scheduled k (l₁ ++ x :: l₂) = when_scheduled k (l₁ ++ l₂)
  | [], x, l₂, hx => by simp [when_scheduled, hx]
  | a :: rest, x, l₂, hx => by
      simp only [List.cons_append, when_scheduled]
      split
      · rfl
      · exact when_scheduled_skip hx

theorem treeMeasure_append {base : Int} {l₁ l₂ : List Entry} :
    treeMeasure base (l₁ ++ l₂) = treeMeasure base l₁ + treeMeasure base l₂ := by
  simp [treeMeasure]

theorem treeMeasure_cons {base : Int} {x : Entry} {l : List Entry} :
    treeMeasure base (x :: l) = (x.start - base).toNat + treeMeasure base l := by
  simp [treeMeasure]

/-- Calling `schedule_close_before` at the deadline and duration of a task,
with the phase start as lower bound, preserves all store invariants and
adds exactly that payload. -/
theorem Inv_close_before {base : Int} {d : RcTask} {l l' : List Entry}
    (hinv : Inv base l)
    (h : schedule_close_before d.task.deadline d.task.duration (some base) d l = some l')
    (hdur : 0 ≤ d.task.duration)
    (hfresh : d.idx ∉ l.map (fun e => e.data.idx)) :
    Inv base l' ∧ payloads l' ~ d :: payloads l := by
  obtain ⟨l₁, x, l₂, hsplit, hl', hxd, hxw, hxdl, hxlb, -, h₁, h₂⟩ :=
    closeBeforeAux_sound h hinv.pw hinv.nonneg (by simp [lowOk])
  subst hsplit hl'
  have hmem : ∀ y ∈ l₁ ++ l₂, y ∈ l₁ ++ x :: l₂ := by
    intro y hy
    rcases List.mem_append.mp hy with hy | hy <;> simp [hy]
  have hpw0 := List.pairwise_append.mp hinv.pw
  constructor
  · constructor
    · rw [List.pairwise_append]
      refine ⟨hpw0.1, List.pairwise_cons.mpr ⟨h₂, hpw0.2.1⟩, ?_⟩
      intro a ha b hb
      rcases List.mem_cons.mp hb with hb | hb
      · subst hb
        exact h₁ a ha
      · exact hpw0.2.2 a ha b hb
    · intro e he
      rcases List.mem_append.mp he with he | he
      · exact hinv.width e (by simp [he])
      · rcases List.mem_cons.mp he with he | he
        · subst he
          rw [hxd]
          exact hxw
        · exact hinv.width e (by simp [he])
    · intro e he
      rcases List.mem_append.mp he with he | he
      · exact hinv.nonneg e (by simp [he])
      · rcases List.mem_cons.mp he with he | he
        · subst he
          omega
        · exact hinv.nonneg e (by simp [he])
    · intro e he
      rcases List.mem_append.mp he with he | he
      · exact hinv.lb e (by simp [he])
      · rcases List.mem_cons.mp he with he | he
        · subst he
          exact lowOk_some.mp hxlb
        · exact hinv.lb e (by simp [he])
    · intro e he
      rcases List.mem_append.mp he with he | he
      · exact hinv.dl e (by simp [he])
      · rcases List.mem_cons.mp he with he | he
        · subst he
          rw [hxd]
          exact hxdl
        · exact hinv.dl e (by simp [he])
    · have hperm : ((l₁ ++ x :: l₂).map (fun e => e.data.idx)) ~
          x.data.idx :: ((l₁ ++ l₂).map (fun e => e.data.idx)) := by
        simp only [List.map_append, List.map_cons]
        exact List.perm_middle
      refine hperm.nodup_iff.mpr (List.nodup_cons.mpr ⟨?_, hinv.nodup⟩)
      rw [hxd]
      exact hfresh
  · simp only [payloads, List.map_append, List.map_cons]
    exact hxd ▸ List.perm_middle

/-- Calling `schedule_close_after` from the phase start, upper-bounded by a value
at or before the deadline of the payload, preserves all store invariants, adds
exactly the given payload, and places it so that lookup returns a start
whose end is within the bound. -/
theorem Inv_close_after {base dur ubv : Int} {d : RcTask} {l l' : List Entry}
    (hinv : Inv base l)
    (h : schedule_close_after base dur (some ubv) d l = some l')
    (hdur : 0 ≤ dur)
    (hwidth : dur = d.task.duration)
    (hub : ubv ≤ d.task.deadline)
    (hfresh : d.idx ∉ l.map (fun e => e.data.idx)) :
    Inv base l' ∧ payloads l' ~ d :: payloads l ∧
      (∃ x : Entry, x.data = d ∧ x.stop = x.start + dur ∧ x.stop ≤ ubv ∧
        base ≤ x.start ∧
        when_scheduled d.idx l' = some x.start ∧
        treeMeasure base l' = treeMeasure base l + (x.start - base).toNat) ∧
      (∀ k, k ≠ d.idx → when_scheduled k l' = when_scheduled k l) := by
  obtain ⟨l₁, x, l₂, hsplit, hl', hxd, hxw, hxs, hxub, h₁, h₂⟩ :=
    closeAfterAux_sound h hinv.pw hinv.nonneg
  subst hsplit hl'
  have hpw0 := List.pairwise_append.mp hinv.pw
  refine ⟨?_, ?_, ?_, ?_⟩
  · constructor
    · rw [List.pairwise_append]
      refine ⟨hpw0.1, List.pairwise_cons.mpr ⟨h₂, hpw0.2.1⟩, ?_⟩
      intro a ha b hb
      rcases List.mem_cons.mp hb with hb | hb
      · subst hb
        exact h₁ a ha
      · exact hpw0.2.2 a ha b hb
    · intro e he
      rcases List.mem_append.mp he with he | he
      · exact hinv.width e (by simp [he])
      · rcases List.mem_cons.mp he with he | he
        · subst he
          rw [hxd, ← hwidth]
          exact hxw
        · exact hinv.width e (by simp [he])
    · intro e he
      rcases List.mem_append.mp he with he | he
      · exact hinv.nonneg e (by simp [he])
      · rcases List.mem_cons.mp he with he | he
        · subst he
          omega
        · exact hinv.nonneg e (by simp [he])
    · intro e he
      rcases List.mem_append.mp he with he | he
      · exact hinv.lb e (by simp [he])
      · rcases List.mem_cons.mp he with he | he
        · subst he
          exact hxs
        · exact hinv.lb e (by simp [he])
    · intro e he
      rcases List.mem_append.mp he with he | he
      · exact hinv.dl e (by simp [he])
      · rcases List.mem_cons.mp he with he | he
        · subst he
          rw [hxd]
          exact le_trans (highOk_some.mp hxub) hub
        · exact hinv.dl e (by simp [he])
    · have hperm : ((l₁ ++ x :: l₂).map (fun e => e.data.idx)) ~
          x.data.idx :: ((l₁ ++ l₂).map (fun e => e.data.idx)) := by
        simp only [List.map_append, List.map_cons]
        exact List.perm_middle
      refine hperm.nodup_iff.mpr (List.nodup_cons.mpr ⟨?_, hinv.nodup⟩)
      rw [hxd]
      exact hfresh
  · simp only [payloads, List.map_append, List.map_cons]
    exact hxd ▸ List.perm_middle
  · refine ⟨x, hxd, hxw, highOk_some.mp hxub, hxs, ?_, ?_⟩
    · refine when_scheduled_eq (by rw [hxd]) ?_
      intro y hy hcontra
      exact hfresh (by rw [← hcontra]; exact List.mem_map_of_mem _ (by simp [hy]))
    · rw [treeMeasure_append, treeMeasure_append, treeMeasure_cons]
      omega
  · intro k hk
    exact when_scheduled_skip (by rw [hxd]; exact fun hc => hk hc.symm)

/-- Removal via `unschedule` preserves all store invariants, removes exactly the
looked-up payload, and does not affect lookups of other keys. -/
theorem Inv_unschedule {base : Int} {k : Nat} {l : List Entry} {e : Entry} {l' : List Entry}
    (hinv : Inv base l) (h : unschedule k l = some (e, l')) :
    Inv base l' ∧ e ∈ l ∧ e.data.idx = k ∧ payloads l ~ e.data :: payloads l' ∧
      when_scheduled k l = some e.start ∧
      e.data.idx ∉ l'.map (fun x => x.data.idx) ∧
      treeMeasure base l = treeMeasure base l' + (e.start - base).toNat ∧
      (∀ k', k' ≠ k → when_scheduled k' l' = when_scheduled k' l) := by
  obtain ⟨l₁, l₂, hsplit, hl', hk, hmiss⟩ := unschedule_sound h
  subst hsplit hl'
  have hsub : (l₁ ++ l₂) <+ (l₁ ++ e :: l₂) :=
    (List.sublist_cons_self e l₂).append_left l₁
  have hmemsub : ∀ y ∈ l₁ ++ l₂, y ∈ l₁ ++ e :: l₂ := fun y hy => hsub.mem hy
  have hndperm : ((l₁ ++ e :: l₂).map (fun x => x.data.idx)) ~
      e.data.idx :: ((l₁ ++ l₂).map (fun x => x.data.idx)) := by
    simp only [List.map_append, List.map_cons]
    exact List.perm_middle
  have hnd' := hndperm.nodup_iff.mp hinv.nodup
  refine ⟨?_, by simp, hk, ?_, ?_, ?_, ?_, ?_⟩
  · exact ⟨hinv.pw.sublist hsub,
      fun x hx => hinv.width x (hmemsub x hx),
      fun x hx => hinv.nonneg x (hmemsub x hx),
      fun x hx => hinv.lb x (hmemsub x hx),
      fun x hx => hinv.dl x (hmemsub x hx),
      (hinv.nodup.sublist (hsub.map _))⟩
  · simp only [payloads, List.map_append, List.map_cons]
    exact List.perm_middle
  · exact when_scheduled_eq hk hmiss
  · exact (List.nodup_cons.mp hnd').1
  · rw [treeMeasure_append, treeMeasure_append, treeMeasure_cons]
    omega
  · intro k' hk'
    exact (when_scheduled_skip (hk ▸ hk' ∘ Eq.symm)).symm

/-- Phase 1 preserves the store invariants and adds exactly the processed
payloads of the processed tasks. -/
theorem phase1_sound {base : Int} :
    ∀ {ts : List RcTask} {l l' : List Entry},
      phase1 base ts l = .ok l' → Inv base l →
      (∀ t ∈ ts, 0 ≤ t.task.duration) →
      ((l.map (fun e => e.data.idx)) ++ ts.map (fun t => t.idx)).Nodup →
      Inv base l' ∧ payloads l' ~ payloads l ++ ts
  | [], l, l', h, hinv, _, _ => by
      simp only [phase1] at h
      cases h
      exact ⟨hinv, by simp⟩
  | t :: rest, l, l', h, hinv, hdur, hnd => by
      simp only [phase1] at h
      split at h
      · exact absurd h (by simp)
      · rename_i hfeas
        cases hcb : schedule_close_before t.task.deadline t.task.duration (some base) t l with
        | none => rw [hcb] at h; exact absurd h (by simp)
        | some l₂ =>
            rw [hcb] at h
            simp only at h
            have hfresh : t.idx ∉ l.map (fun e => e.data.idx) := by
              rw [List.nodup_append] at hnd
              intro hc
              exact hnd.2.2 hc (by simp)
            obtain ⟨hinv₂, hperm₂⟩ :=
              Inv_close_before hinv hcb (hdur t (by simp)) hfresh
            have hnd₂ : ((l₂.map (fun e => e.data.idx)) ++ rest.map (fun t => t.idx)).Nodup := by
              have hidx : (l₂.map (fun e => e.data.idx)) ~
                  t.idx :: (l.map (fun e => e.data.idx)) := by
                have hm := hperm₂.map (fun d : RcTask => d.idx)
                simpa only [payloads, List.map_map, List.map_cons,
                  Function.comp_def] using hm
              refine ((hidx.append_right _).nodup_iff).mpr ?_
              have : (l.map (fun e => e.data.idx) ++ (t.idx :: rest.map (fun t => t.idx))).Nodup := by
                simpa using hnd
              exact (List.perm_middle.symm.nodup_iff).mpr this
            obtain ⟨hinv', hperm'⟩ :=
              phase1_sound h hinv₂ (fun t' ht' => hdur t' (by simp [ht'])) hnd₂
            refine ⟨hinv', ?_⟩
            calc payloads l' ~ payloads l₂ ++ rest := hperm'
              _ ~ (t :: payloads l) ++ rest := hperm₂.append_right rest
              _ ~ payloads l ++ t :: rest := List.perm_middle.symm

/-- One phase-2 pass of the importance algorithm preserves the store
invariants and the payload multiset, never moves a task later, never
increases the measure, and strictly decreases it when it reports a
change. -/
theorem importancePass_sound {base : Int} :
    ∀ {ts : List RcTask} {l l' : List Entry} {ch : Bool},
      importancePass base ts l = .ok (l', ch) →
      Inv base l →
      (∀ t ∈ ts, ∀ d ∈ payloads l, d.idx = t.idx → d = t) →
      Inv base l' ∧ List.Perm (payloads l') (payloads l) ∧
        treeMeasure base l' ≤ treeMeasure base l ∧
        (ch = true → treeMeasure base l' < treeMeasure base l) ∧
        (∀ k s s', when_scheduled k l = some s → when_scheduled k l' = some s' → s' ≤ s)
  | [], l, l', ch, h, hinv, _ => by
      simp only [importancePass, Except.ok.injEq, Prod.mk.injEq] at h
      obtain ⟨rfl, rfl⟩ := h
      refine ⟨hinv, .refl _, le_refl _, by simp, ?_⟩
      intro k s s' h1 h2
      rw [h1] at h2
      exact (Option.some_inj.mp h2).symm.le
  | t :: rest, l, l', ch, h, hinv, hag => by
      simp only [importancePass] at h
      cases hun : unschedule t.idx l with
      | none => rw [hun] at h; exact absurd h (by simp)
      | some p =>
          obtain ⟨e, l₁⟩ := p
          rw [hun] at h
          simp only at h
          obtain ⟨hinv₁, hel, heidx, hpl, hwhenl, hfresh, hmeasl, hskip₁⟩ :=
            Inv_unschedule hinv hun
          have hwidth := hinv.width e hel
          have hnn := hinv.nonneg e hel
          have hdata : e.data = t :=
            hag t (by simp) e.data (List.mem_map_of_mem _ hel) heidx
          cases hca : schedule_close_after base t.task.duration (some e.stop) e.data l₁ with
          | none => rw [hca] at h; exact absurd h (by simp)
          | some l₂ =>
              rw [hca] at h
              simp only at h
              have hdur0 : 0 ≤ t.task.duration := by
                have h0 : 0 ≤ e.data.task.duration := by omega
                rw [hdata] at h0
                exact h0
              obtain ⟨hinv₂, hpl₂, ⟨x, hxd, hxw, hxub, hxlb, hxwhen, hxmeas⟩, hskip₂⟩ :=
                Inv_close_after hinv₁ hca hdur0 (by rw [hdata]) (hinv.dl e hel) hfresh
              rw [heidx] at hxwhen
              rw [hxwhen] at h
              simp only at h
              have hxe : x.start ≤ e.start := by
                have h1 : x.stop ≤ e.stop := hxub
                have h2 : e.stop = e.start + t.task.duration := by
                  rw [hwidth, hdata]
                omega
              have hperm : List.Perm (payloads l₂) (payloads l) :=
                hpl₂.trans hpl.symm
              split at h
              · rename_i hne
                simp only [Except.ok.injEq, Prod.mk.injEq] at h
                obtain ⟨rfl, rfl⟩ := h
                have hlt : treeMeasure base l₂ < treeMeasure base l := by
                  have : x.start ≠ e.start := fun hc => hne (hc.symm)
                  omega
                refine ⟨hinv₂, hperm, hlt.le, fun _ => hlt, ?_⟩
                intro k s s' h1 h2
                by_cases hk : k = t.idx
                · subst hk
                  rw [hwhenl] at h1
                  rw [hxwhen] at h2
                  rw [← Option.some_inj.mp h1, ← Option.some_inj.mp h2]
                  exact hxe
                · rw [hskip₂ k (by rw [heidx]; exact hk), hskip₁ k hk, h1] at h2
                  exact (Option.some_inj.mp h2).symm.le
              · rename_i hne
                have hxs : e.start = x.start := not_not.mp (by simpa using hne)
                have hsame : ∀ k, when_scheduled k l₂ = when_scheduled k l := by
                  intro k
                  by_cases hk : k = t.idx
                  · subst hk
                    rw [hwhenl, hxwhen, hxs]
                  · rw [hskip₂ k (by rw [heidx]; exact hk), hskip₁ k hk]
                have hmeq : treeMeasure base l₂ = treeMeasure base l := by omega
                have hag' : ∀ t' ∈ rest, ∀ d ∈ payloads l₂, d.idx = t'.idx → d = t' := by
                  intro t' ht' d hd
                  exact hag t' (by simp [ht']) d (hperm.mem_iff.mp hd)
                obtain ⟨hinv', hperm', hle', hlt', hlater'⟩ :=
                  importancePass_sound h hinv₂ hag'
                refine ⟨hinv', hperm'.trans hperm, by omega, fun hc => by
                  have := hlt' hc; omega, ?_⟩
                intro k s s' h1 h2
                exact hlater' k s s' (by rw [hsame, h1]) h2

theorem when_scheduled_isSome {k : Nat} :
    ∀ {l : List Entry}, (when_scheduled k l).isSome ↔ k ∈ l.map (fun e => e.data.idx)
  | [] => by simp [when_scheduled]
  | e :: rest => by
      by_cases hk : e.data.idx = k
      · simp [when_scheduled, hk]
      · simp [when_scheduled, hk, Ne.symm hk, when_scheduled_isSome (l := rest)]

/-- The phase-2 fixed-point loop of the importance algorithm, when it
completes successfully within its fuel, preserves the store invariants
and the payload multiset and never moves a task later. -/
theorem importanceLoop_sound {base : Int} {ts : List RcTask} :
    ∀ {fuel : Nat} {l l' : List Entry},
      importanceLoop base ts fuel l = some (.ok l') →
      Inv base l →
      (∀ t ∈ ts, ∀ d ∈ payloads l, d.idx = t.idx → d = t) →
      Inv base l' ∧ List.Perm (payloads l') (payloads l) ∧
        (∀ k s s', when_scheduled k l = some s → when_scheduled k l' = some s' → s' ≤ s)
  | 0, l, l', h, _, _ => absurd h (by simp [importanceLoop])
  | fuel + 1, l, l', h, hinv, hag => by
      simp only [importanceLoop] at h
      cases hpass : importancePass base ts l with
      | error e =>
          rw [hpass] at h
          exact absurd (Option.some_inj.mp h) (by simp)
      | ok p =>
          obtain ⟨l₂, ch⟩ := p
          rw [hpass] at h
          cases ch with
          | false =>
              simp only [Option.some_inj, Except.ok.injEq] at h
              subst h
              obtain ⟨hinv₂, hperm₂, -, -, hlater₂⟩ := importancePass_sound hpass hinv hag
              exact ⟨hinv₂, hperm₂, hlater₂⟩
          | true =>
              simp only at h
              obtain ⟨hinv₂, hperm₂, -, -, hlater₂⟩ := importancePass_sound hpass hinv hag
              have hag₂ : ∀ t ∈ ts, ∀ d ∈ payloads l₂, d.idx = t.idx → d = t := by
                intro t ht d hd
                exact hag t ht d (hperm₂.mem_iff.mp hd)
              obtain ⟨hinv', hperm', hlater'⟩ := importanceLoop_sound h hinv₂ hag₂
              refine ⟨hinv', hperm'.trans hperm₂, ?_⟩
              intro k s s' h1 h2
              have hk2 : k ∈ l₂.map (fun e => e.data.idx) := by
                have hk1 : k ∈ l.map (fun e => e.data.idx) := by
                  rw [← when_scheduled_isSome]
                  simp [h1]
                have hidx : List.Perm (l₂.map (fun e => e.data.idx))
                    (l.map (fun e => e.data.idx)) := by
                  have hm := hperm₂.map (fun d : RcTask => d.idx)
                  simpa only [payloads, List.map_map, Function.comp_def] using hm
                exact hidx.mem_iff.mpr hk1
              obtain ⟨s₂, hs₂⟩ := Option.isSome_iff_exists.mp
                (when_scheduled_isSome.mpr hk2)
              exact le_trans (hlater' k s₂ s' hs₂ h2) (hlater₂ k s s₂ h1 hs₂)

/-- With fuel exceeding the current measure, the phase-2 loop of the
importance algorithm always exits (successfully or with an error) before
the fuel runs out: the fixed-point iteration terminates. -/
theorem importanceLoop_not_none {base : Int} {ts : List RcTask} :
    ∀ (n : Nat) {l : List Entry}, treeMeasure base l < n → Inv base l →
      (∀ t ∈ ts, ∀ d ∈ payloads l, d.idx = t.idx → d = t) →
      importanceLoop base ts n l ≠ none
  | 0, l, hm, _, _ => by omega
  | n + 1, l, hm, hinv, hag => by
      simp only [importanceLoop]
      cases hpass : importancePass base ts l with
      | error e => simp
      | ok p =>
          obtain ⟨l₂, ch⟩ := p
          cases ch with
          | false => simp
          | true =>
              simp only
              obtain ⟨hinv₂, hperm₂, -, hlt, -⟩ := importancePass_sound hpass hinv hag
              have hag₂ : ∀ t ∈ ts, ∀ d ∈ payloads l₂, d.idx = t.idx → d = t := by
                intro t ht d hd
                exact hag t ht d (hperm₂.mem_iff.mp hd)
              exact importanceLoop_not_none n (by have := hlt rfl; omega) hinv₂ hag₂

theorem wrapTasks_map_idx : ∀ (n : Nat) (ts : List Task),
    (wrapTasks n ts).map (fun t => t.idx) = List.range' n ts.length
  | _, [] => rfl
  | n, t :: rest => by
      simp [wrapTasks, List.range'_succ, wrapTasks_map_idx (n + 1) rest]

theorem wrapTasks_map_task : ∀ (n : Nat) (ts : List Task),
    (wrapTasks n ts).map (fun t => t.task) = ts
  | _, [] => rfl
  | n, t :: rest => by simp [wrapTasks, wrapTasks_map_task (n + 1) rest]

theorem wrapTasks_idx_nodup (n : Nat) (ts : List Task) :
    ((wrapTasks n ts).map (fun t => t.idx)).Nodup := by
  rw [wrapTasks_map_idx]
  exact List.nodup_range' n ts.length

theorem wrapTasks_idx_inj {n : Nat} {ts : List Task} :
    ∀ a ∈ wrapTasks n ts, ∀ b ∈ wrapTasks n ts, a.idx = b.idx → a = b :=
  fun _ ha _ hb h =>
    List.inj_on_of_nodup_map (wrapTasks_idx_nodup n ts) ha hb h

/-- Success of the importance strategy: the final store satisfies all
invariants, holds exactly the given payloads, and no task sits later than
where phase 1 put it. -/
theorem importance_sound {fuel : Nat} {start : Int} {rc : List RcTask} {l' : List Entry}
    (h : schedule_according_to_importance fuel start rc = some (.ok l'))
    (hdur : ∀ t ∈ rc, 0 ≤ t.task.duration)
    (hinj : ∀ a ∈ rc, ∀ b ∈ rc, a.idx = b.idx → a = b)
    (hnd : (rc.map (fun t => t.idx)).Nodup) :
    Inv start l' ∧ List.Perm (payloads l') rc ∧
      ∃ l₁, phase1 start (List.insertionSort (impLe start) rc) [] = .ok l₁ ∧
        List.Perm (payloads l₁) rc ∧
        (∀ k s s', when_scheduled k l₁ = some s → when_scheduled k l' = some s' → s' ≤ s) := by
  have hsp : List.Perm (List.insertionSort (impLe start) rc) rc := List.perm_insertionSort _ rc
  simp only [schedule_according_to_importance] at h
  cases hp1 : phase1 start (List.insertionSort (impLe start) rc) [] with
  | error e =>
      rw [hp1] at h
      exact absurd (Option.some_inj.mp h) (by simp)
  | ok l₁ =>
      rw [hp1] at h
      simp only at h
      have hinv₀ : Inv start ([] : List Entry) :=
        ⟨by simp, by simp, by simp, by simp, by simp, by simp⟩
      obtain ⟨hinv₁, hperm₁⟩ := phase1_sound hp1 hinv₀
        (fun t ht => hdur t (hsp.mem_iff.mp ht))
        (by
          have := (hsp.map (fun t => t.idx)).nodup_iff.mpr hnd
          simpa using this)
      have hperm₁' : List.Perm (payloads l₁) rc := by
        refine hperm₁.trans ?_
        simpa using hsp
      split at h
      · rename_i hemp
        simp only [Option.some_inj, Except.ok.injEq] at h
        subst h
        refine ⟨hinv₁, hperm₁', l₁, rfl, hperm₁', ?_⟩
        intro k s s' h1 h2
        rw [h1] at h2
        exact (Option.some_inj.mp h2).symm.le
      · have hag : ∀ t ∈ (List.insertionSort (impLe start) rc).reverse,
            ∀ d ∈ payloads l₁, d.idx = t.idx → d = t := by
          intro t ht d hd hidx
          exact hinj d (hperm₁'.mem_iff.mp hd) t
            (hsp.mem_iff.mp (List.mem_reverse.mp ht)) hidx
        obtain ⟨hinv', hperm', hlater'⟩ := importanceLoop_sound h hinv₁ hag
        exact ⟨hinv', hperm'.trans hperm₁', l₁, rfl, hperm₁', hlater'⟩

/-- The importance strategy always terminates: some fuel suffices for the
phase-2 fixed-point loop to exit. -/
theorem importance_terminates {start : Int} {rc : List RcTask}
    (hdur : ∀ t ∈ rc, 0 ≤ t.task.duration)
    (hinj : ∀ a ∈ rc, ∀ b ∈ rc, a.idx = b.idx → a = b)
    (hnd : (rc.map (fun t => t.idx)).Nodup) :
    ∃ fuel, (schedule_according_to_importance fuel start rc).isSome := by
  have hsp : List.Perm (List.insertionSort (impLe start) rc) rc := List.perm_insertionSort _ rc
  cases hp1 : phase1 start (List.insertionSort (impLe start) rc) [] with
  | error e =>
      exact ⟨1, by simp [schedule_according_to_importance, hp1]⟩
  | ok l₁ =>
      have hinv₀ : Inv start ([] : List Entry) :=
        ⟨by simp, by simp, by simp, by simp, by simp, by simp⟩
      obtain ⟨hinv₁, hperm₁⟩ := phase1_sound hp1 hinv₀
        (fun t ht => hdur t (hsp.mem_iff.mp ht))
        (by
          have := (hsp.map (fun t => t.idx)).nodup_iff.mpr hnd
          simpa using this)
      have hperm₁' : List.Perm (payloads l₁) rc := by
        refine hperm₁.trans ?_
        simpa using hsp
      by_cases hemp : l₁.isEmpty
      · exact ⟨1, by simp [schedule_according_to_importance, hp1, hemp]⟩
      · refine ⟨treeMeasure start l₁ + 1, ?_⟩
        have hag : ∀ t ∈ (List.insertionSort (impLe start) rc).reverse,
            ∀ d ∈ payloads l₁, d.idx = t.idx → d = t := by
          intro t ht d hd hidx
          exact hinj d (hperm₁'.mem_iff.mp hd) t
            (hsp.mem_iff.mp (List.mem_reverse.mp ht)) hidx
        have hnn := @importanceLoop_not_none start
          ((List.insertionSort (impLe start) rc).reverse)
          (treeMeasure start l₁ + 1) l₁ (by omega) hinv₁ hag
        simp only [schedule_according_to_importance, hp1, hemp]
        simp only [Bool.false_eq_true, if_false]
        exact Option.ne_none_iff_isSome.mp hnn

/-- Chaining the never-moves-later property through an intermediate store
holding the same payloads. -/
theorem noLater_trans {l l₂ l' : List Entry}
    (hperm : List.Perm (payloads l₂) (payloads l))
    (h12 : ∀ k s s', when_scheduled k l = some s → when_scheduled k l₂ = some s' → s' ≤ s)
    (h23 : ∀ k s s', when_scheduled k l₂ = some s → when_scheduled k l' = some s' → s' ≤ s) :
    ∀ k s s', when_scheduled k l = some s → when_scheduled k l' = some s' → s' ≤ s := by
  intro k s s' h1 h2
  have hk2 : k ∈ l₂.map (fun e => e.data.idx) := by
    have hk1 : k ∈ l.map (fun e => e.data.idx) := by
      rw [← when_scheduled_isSome]
      simp [h1]
    have hidx : List.Perm (l₂.map (fun e => e.data.idx)) (l.map (fun e => e.data.idx)) := by
      have hm := hperm.map (fun d : RcTask => d.idx)
      simpa only [payloads, List.map_map, Function.comp_def] using hm
    exact hidx.mem_iff.mpr hk1
  obtain ⟨s₂, hs₂⟩ := Option.isSome_iff_exists.mp (when_scheduled_isSome.mpr hk2)
  exact le_trans (h23 k s₂ s' hs₂ h2) (h12 k s s₂ h1 hs₂)

/-- The single compacting pass of the urgency algorithm preserves the
store invariants and the payload multiset and never moves a task later. -/
theorem myrjamPass_sound {base : Int} :
    ∀ {snap : List Entry} {l l' : List Entry},
      myrjamPass base snap l = .ok l' →
      Inv base l →
      Inv base l' ∧ List.Perm (payloads l') (payloads l) ∧
        (∀ k s s', when_scheduled k l = some s → when_scheduled k l' = some s' → s' ≤ s)
  | [], l, l', h, hinv => by
      simp only [myrjamPass, Except.ok.injEq] at h
      subst h
      refine ⟨hinv, .refl _, ?_⟩
      intro k s s' h1 h2
      rw [h1] at h2
      exact (Option.some_inj.mp h2).symm.le
  | entry :: rest, l, l', h, hinv => by
      simp only [myrjamPass] at h
      cases hun : unschedule entry.data.idx l with
      | none => rw [hun] at h; exact absurd h (by simp)
      | some p =>
          obtain ⟨e, l₁⟩ := p
          rw [hun] at h
          simp only at h
          obtain ⟨hinv₁, hel, heidx, hpl, hwhenl, hfresh, hmeasl, hskip₁⟩ :=
            Inv_unschedule hinv hun
          have hwidth := hinv.width e hel
          have hnn := hinv.nonneg e hel
          cases hca : schedule_close_after base e.data.task.duration (some e.stop) e.data l₁ with
          | none => rw [hca] at h; exact absurd h (by simp)
          | some l₂ =>
              rw [hca] at h
              simp only at h
              have hdur0 : 0 ≤ e.data.task.duration := by omega
              obtain ⟨hinv₂, hpl₂, ⟨x, hxd, hxw, hxub, hxlb, hxwhen, hxmeas⟩, hskip₂⟩ :=
                Inv_close_after hinv₁ hca hdur0 rfl (hinv.dl e hel) hfresh
              have hperm : List.Perm (payloads l₂) (payloads l) :=
                hpl₂.trans hpl.symm
              have hstep : ∀ k s s', when_scheduled k l = some s →
                  when_scheduled k l₂ = some s' → s' ≤ s := by
                intro k s s' h1 h2
                by_cases hk : k = entry.data.idx
                · subst hk
                  rw [hwhenl] at h1
                  rw [heidx] at hxwhen
                  rw [hxwhen] at h2
                  have hxe : x.start ≤ e.start := by omega
                  rw [← Option.some_inj.mp h1, ← Option.some_inj.mp h2]
                  exact hxe
                · rw [hskip₂ k (by rw [heidx]; exact hk), hskip₁ k hk, h1] at h2
                  exact (Option.some_inj.mp h2).symm.le
              obtain ⟨hinv', hperm', hlater'⟩ := myrjamPass_sound h hinv₂
              exact ⟨hinv', hperm'.trans hperm,
                noLater_trans hperm hstep hlater'⟩

/-- Success of the urgency algorithm: the final store satisfies all
invariants, holds exactly the given payloads, and no task sits later than
where phase 1 put it. -/
theorem myrjam_sound {start : Int} {rc : List RcTask} {l' : List Entry}
    (h : schedule_according_to_myrjam start rc = .ok l')
    (hdur : ∀ t ∈ rc, 0 ≤ t.task.duration)
    (hnd : (rc.map (fun t => t.idx)).Nodup) :
    Inv start l' ∧ List.Perm (payloads l') rc ∧
      ∃ l₁, phase1 start (List.insertionSort myrLe rc) [] = .ok l₁ ∧
        List.Perm (payloads l₁) rc ∧
        (∀ k s s', when_scheduled k l₁ = some s → when_scheduled k l' = some s' → s' ≤ s) := by
  have hsp : List.Perm (List.insertionSort myrLe rc) rc := List.perm_insertionSort _ rc
  simp only [schedule_according_to_myrjam] at h
  cases hp1 : phase1 start (List.insertionSort myrLe rc) [] with
  | error e =>
      rw [hp1] at h
      exact absurd h (by simp)
  | ok l₁ =>
      rw [hp1] at h
      simp only at h
      have hinv₀ : Inv start ([] : List Entry) :=
        ⟨by simp, by simp, by simp, by simp, by simp, by simp⟩
      obtain ⟨hinv₁, hperm₁⟩ := phase1_sound hp1 hinv₀
        (fun t ht => hdur t (hsp.mem_iff.mp ht))
        (by
          have := (hsp.map (fun t => t.idx)).nodup_iff.mpr hnd
          simpa using this)
      have hperm₁' : List.Perm (payloads l₁) rc := by
        refine hperm₁.trans ?_
        simpa using hsp
      obtain ⟨hinv', hperm', hlater'⟩ := myrjamPass_sound h hinv₁
      exact ⟨hinv', hperm'.trans hperm₁', l₁, rfl, hperm₁', hlater'⟩

theorem wrapTasks_mem_task {n : Nat} {ts : List Task} {t : RcTask}
    (h : t ∈ wrapTasks n ts) : t.task ∈ ts := by
  rw [← wrapTasks_map_task n ts]
  exact List.mem_map_of_mem _ h

/-- A successful facade call, for either strategy, is the image of a final
store satisfying all invariants and holding exactly the wrapped input
tasks. -/
theorem schedule_ok_sound {fuel : Nat} {start : Int} {tasks : List Task}
    {strategy : SchedulingStrategy} {sched : List ScheduledTask}
    (h : schedule fuel start tasks strategy = some (.ok sched))
    (hdur : ∀ t ∈ tasks, 0 ≤ t.duration) :
    ∃ l', Inv (start + SCHEDULE_DELAY) l' ∧ sched = from_tree l' ∧
      List.Perm (payloads l') (wrapTasks 0 tasks) := by
  have hdur' : ∀ t ∈ wrapTasks 0 tasks, 0 ≤ t.task.duration :=
    fun t ht => hdur t.task (wrapTasks_mem_task ht)
  have hnd := wrapTasks_idx_nodup 0 tasks
  cases strategy with
  | Importance =>
      simp only [schedule] at h
      rw [Option.map_eq_some'] at h
      obtain ⟨r, hr, hmap⟩ := h
      cases r with
      | error e => exact absurd hmap (by simp [Except.map])
      | ok l' =>
          obtain ⟨hinv, hperm, -⟩ :=
            importance_sound hr hdur' (@wrapTasks_idx_inj 0 tasks) hnd
          refine ⟨l', hinv, ?_, hperm⟩
          simpa [Except.map] using hmap.symm
  | Urgency =>
      simp only [schedule, Option.some_inj] at h
      cases hr : schedule_according_to_myrjam (start + SCHEDULE_DELAY) (wrapTasks 0 tasks) with
      | error e => rw [hr] at h; exact absurd h (by simp [Except.map])
      | ok l' =>
          rw [hr] at h
          obtain ⟨hinv, hperm, -⟩ := myrjam_sound hr hdur' hnd
          refine ⟨l', hinv, ?_, hperm⟩
          simpa [Except.map] using h.symm

/-! ## Contiguous packing: the order argument for the urgency phase 2 -/

theorem packEnd_append_one :
    ∀ {P : List Entry} {b : Int} {x : Entry}, packEnd b (P ++ [x]) = x.stop
  | [], _, _ => rfl
  | e :: P', b, x => packEnd_append_one (P := P') (b := e.stop)

theorem Packed_append_one :
    ∀ {P : List Entry} {b : Int} {x : Entry},
      Packed b P → x.start = packEnd b P → x.start < x.stop → Packed b (P ++ [x])
  | [], b, x, _, hx, hpos => ⟨hx, hpos, trivial⟩
  | e :: P', b, x, ⟨he, hep, hP⟩, hx, hpos =>
      ⟨he, hep, Packed_append_one hP hx hpos⟩

/-- On a store whose prefix is packed contiguously from `b` (with no
internal gaps), `schedule_close_after` lands exactly at the end of the
packed prefix, provided the placed duration is positive, the first
remaining entry leaves room, and the upper bound allows it. -/
theorem closeAfterAux_packed {dur : Int} {ub : Option Int} {d : RcTask} :
    ∀ {P : List Entry} {b : Int} {T : List Entry},
      Packed b P → 0 < dur →
      (∀ y, T.head? = some y → packEnd b P + dur ≤ y.start) →
      highOk ub (packEnd b P + dur) = true →
      closeAfterAux dur ub d (P ++ T) b =
        some (P ++ ⟨packEnd b P, packEnd b P + dur, d⟩ :: T)
  | [], b, T, _, hdur, hT, hub => by
      simp only [packEnd] at hub hT ⊢
      cases T with
      | nil =>
          simp only [List.nil_append, closeAfterAux]
          rw [if_pos hub]
      | cons y T' =>
          have hy := hT y rfl
          simp only [List.nil_append, closeAfterAux]
          rw [if_pos (by
            simp only [Bool.and_eq_true, decide_eq_true_eq]
            exact ⟨hy, hub⟩)]
  | e :: P', b, T, hP, hdur, hT, hub => by
      obtain ⟨heb, hepos, hP'⟩ := hP
      simp only [List.cons_append, closeAfterAux]
      rw [if_neg (by
        simp only [Bool.and_eq_true, decide_eq_true_eq]
        intro hc
        omega)]
      rw [max_eq_right (by omega)]
      simp only [List.append_eq, packEnd] at hT hub ⊢
      rw [closeAfterAux_packed hP' hdur hT hub]
      rfl

theorem unschedule_append {k : Nat} :
    ∀ {P : List Entry} {e : Entry} {T : List Entry},
      e.data.idx = k → (∀ p ∈ P, p.data.idx ≠ k) →
      unschedule k (P ++ e :: T) = some (e, P ++ T)
  | [], e, T, hk, _ => by simp [unschedule, hk]
  | p :: P', e, T, hk, hP => by
      simp only [List.cons_append, unschedule]
      rw [if_neg (hP p (by simp))]
      simp only [List.append_eq]
      rw [unschedule_append hk (fun q hq => hP q (by simp [hq]))]
      rfl

theorem packList_map_data : ∀ (b : Int) (s : List Entry),
    (packList b s).map Entry.data = s.map Entry.data
  | _, [] => rfl
  | b, e :: r => by simp [packList, packList_map_data _ r]

/-- The single phase-2 pass of the urgency algorithm packs the snapshot
entries contiguously from the phase start, in snapshot order, whenever
all placed durations are positive. -/
theorem myrjamPass_packed {base : Int} :
    ∀ {s P l' : List Entry},
      myrjamPass base s (P ++ s) = .ok l' →
      Packed base P →
      s.Pairwise EntryLE →
      (∀ e ∈ s, e.stop = e.start + e.data.task.duration) →
      (∀ e ∈ s, e.start < e.stop) →
      (∀ y, s.head? = some y → packEnd base P ≤ y.start) →
      (((P ++ s).map (fun e => e.data.idx)).Nodup) →
      l' = P ++ packList (packEnd base P) s
  | [], P, l', h, _, _, _, _, _, _ => by
      rw [List.append_nil] at h
      simp only [myrjamPass, Except.ok.injEq] at h
      rw [← h]
      simp [packList]
  | e :: s', P, l', h, hP, hpw, hw, hpos, hhead, hnd => by
      have hPk : ∀ p ∈ P, p.data.idx ≠ e.data.idx := by
        rw [List.map_append, List.nodup_append] at hnd
        intro p hp hc
        exact hnd.2.2 (List.mem_map_of_mem _ hp) (by simp [hc])
      have hun : unschedule e.data.idx (P ++ e :: s') = some (e, P ++ s') :=
        unschedule_append rfl hPk
      simp only [myrjamPass] at h
      rw [hun] at h
      simp only at h
      have hF : packEnd base P ≤ e.start := hhead e rfl
      have hwe := hw e (by simp)
      have hpe := hpos e (by simp)
      have hca : schedule_close_after base e.data.task.duration (some e.stop) e.data
          (P ++ s') = some (P ++
            ⟨packEnd base P, packEnd base P + e.data.task.duration, e.data⟩ :: s') := by
        unfold schedule_close_after
        refine closeAfterAux_packed hP (by omega) ?_ ?_
        · intro y hy
          have h1 : EntryLE e y :=
            (List.pairwise_cons.mp hpw).1 y (List.mem_of_mem_head? hy)
          have h2 : e.stop ≤ y.start := h1
          omega
        · exact highOk_some.mpr (by omega)
      rw [hca] at h
      simp only at h
      have hassoc :
          P ++ ⟨packEnd base P, packEnd base P + e.data.task.duration, e.data⟩ :: s' =
            (P ++ [⟨packEnd base P, packEnd base P + e.data.task.duration, e.data⟩]) ++ s' := by
        simp
      rw [hassoc] at h
      have hx : (⟨packEnd base P, packEnd base P + e.data.task.duration, e.data⟩ :
          Entry).start < (⟨packEnd base P, packEnd base P + e.data.task.duration,
          e.data⟩ : Entry).stop := by
        show packEnd base P < packEnd base P + e.data.task.duration
        omega
      have hnd' : (((P ++ [(⟨packEnd base P, packEnd base P + e.data.task.duration,
          e.data⟩ : Entry)]) ++ s').map (fun x => x.data.idx)).Nodup := by
        have heq : (((P ++ [(⟨packEnd base P, packEnd base P + e.data.task.duration,
            e.data⟩ : Entry)]) ++ s').map (fun x => x.data.idx)) =
            ((P ++ e :: s').map (fun x => x.data.idx)) := by
          simp
        rw [heq]
        exact hnd
      have hrec := myrjamPass_packed h
        (Packed_append_one hP rfl hx)
        (List.pairwise_cons.mp hpw).2
        (fun y hy => hw y (by simp [hy]))
        (fun y hy => hpos y (by simp [hy]))
        (by
          intro y hy
          rw [packEnd_append_one]
          have h1 : EntryLE e y :=
            (List.pairwise_cons.mp hpw).1 y (List.mem_of_mem_head? hy)
          have h2 : e.stop ≤ y.start := h1
          show (⟨packEnd base P, packEnd base P + e.data.task.duration, e.data⟩ :
            Entry).stop ≤ y.start
          show packEnd base P + e.data.task.duration ≤ y.start
          omega)
        hnd'
      rw [hrec, packEnd_append_one]
      simp [packList, packEnd]

/-! ## The claims -/

/-- C1: for every task set and either strategy, if `Schedule::schedule`
returns a schedule, then every returned entry satisfies
`assigned_start + task.duration <= task.deadline`.  (Durations are
non-negative time spans in the data model.) -/
theorem C1_deadline_safety {fuel : Nat} {start : Int} {tasks : List Task}
    {strategy : SchedulingStrategy} {sched : List ScheduledTask}
    (hdur : ∀ t ∈ tasks, 0 ≤ t.duration)
    (h : schedule fuel start tasks strategy = some (.ok sched)) :
    ∀ st ∈ sched, st.when + st.task.duration ≤ st.task.deadline := by
  obtain ⟨l', hinv, rfl, -⟩ := schedule_ok_sound h hdur
  intro st hst
  simp only [from_tree, List.mem_map] at hst
  obtain ⟨e, he, rfl⟩ := hst
  have h1 := hinv.width e he
  have h2 := hinv.dl e he
  simp only
  omega

theorem C1_deadline_safety_witness :
    (∀ t ∈ [(⟨0, "a", 3 * SCHEDULE_DELAY, SCHEDULE_DELAY, 5⟩ : Task)], (0 : Int) ≤ t.duration) ∧
      ∀ st ∈ [(⟨⟨0, "a", 3 * SCHEDULE_DELAY, SCHEDULE_DELAY, 5⟩, SCHEDULE_DELAY⟩ : ScheduledTask)],
        st.when + st.task.duration ≤ st.task.deadline :=
  ⟨by decide, C1_deadline_safety (by decide)
    (by decide :
      schedule 3 0 [⟨0, "a", 3 * SCHEDULE_DELAY, SCHEDULE_DELAY, 5⟩] .Importance =
        some (.ok [⟨⟨0, "a", 3 * SCHEDULE_DELAY, SCHEDULE_DELAY, 5⟩, SCHEDULE_DELAY⟩]))⟩

/-- C2: for every task set on which `Schedule::schedule` succeeds (either
strategy), the returned schedule holds exactly one entry per input task:
its multiset of tasks is a permutation of the input list. -/
theorem C2_completeness {fuel : Nat} {start : Int} {tasks : List Task}
    {strategy : SchedulingStrategy} {sched : List ScheduledTask}
    (hdur : ∀ t ∈ tasks, 0 ≤ t.duration)
    (h : schedule fuel start tasks strategy = some (.ok sched)) :
    List.Perm (sched.map (fun st => st.task)) tasks := by
  obtain ⟨l', hinv, rfl, hperm⟩ := schedule_ok_sound h hdur
  have hm := hperm.map (fun d : RcTask => d.task)
  rw [wrapTasks_map_task] at hm
  have heq : (from_tree l').map (fun st => st.task) =
      (payloads l').map (fun d => d.task) := by
    simp [from_tree, payloads, List.map_map, Function.comp_def]
  rw [heq]
  exact hm

theorem C2_completeness_witness :
    (∀ t ∈ [(⟨0, "a", 3 * SCHEDULE_DELAY, SCHEDULE_DELAY, 5⟩ : Task)], (0 : Int) ≤ t.duration) ∧
      List.Perm
        ([(⟨⟨0, "a", 3 * SCHEDULE_DELAY, SCHEDULE_DELAY, 5⟩, SCHEDULE_DELAY⟩ :
          ScheduledTask)].map (fun st => st.task))
        [⟨0, "a", 3 * SCHEDULE_DELAY, SCHEDULE_DELAY, 5⟩] :=
  ⟨by decide, C2_completeness (by decide)
    (by decide :
      schedule 3 0 [⟨0, "a", 3 * SCHEDULE_DELAY, SCHEDULE_DELAY, 5⟩] .Importance =
        some (.ok [⟨⟨0, "a", 3 * SCHEDULE_DELAY, SCHEDULE_DELAY, 5⟩, SCHEDULE_DELAY⟩]))⟩

/-- C3: for every successful call, no two returned half-open intervals
intersect (each earlier entry ends at or before the later one
starts) and the sequence is ascending in assigned start time. -/
theorem C3_non_overlap_sorted {fuel : Nat} {start : Int} {tasks : List Task}
    {strategy : SchedulingStrategy} {sched : List ScheduledTask}
    (hdur : ∀ t ∈ tasks, 0 ≤ t.duration)
    (h : schedule fuel start tasks strategy = some (.ok sched)) :
    sched.Pairwise (fun a b => a.when + a.task.duration ≤ b.when ∧ a.when ≤ b.when) := by
  obtain ⟨l', hinv, rfl, -⟩ := schedule_ok_sound h hdur
  rw [from_tree, List.pairwise_map]
  refine hinv.pw.imp_of_mem ?_
  intro a b ha hb hab
  have hwa := hinv.width a ha
  have hna := hinv.nonneg a ha
  have hab' : a.stop ≤ b.start := hab
  exact ⟨by simp only; omega, by simp only; omega⟩

theorem C3_non_overlap_sorted_witness :
    (∀ t ∈ [(⟨0, "a", 3 * SCHEDULE_DELAY, SCHEDULE_DELAY, 5⟩ : Task)], (0 : Int) ≤ t.duration) ∧
      ([(⟨⟨0, "a", 3 * SCHEDULE_DELAY, SCHEDULE_DELAY, 5⟩, SCHEDULE_DELAY⟩ :
        ScheduledTask)].Pairwise
        (fun a b => a.when + a.task.duration ≤ b.when ∧ a.when ≤ b.when)) :=
  ⟨by decide, C3_non_overlap_sorted (by decide)
    (by decide :
      schedule 3 0 [⟨0, "a", 3 * SCHEDULE_DELAY, SCHEDULE_DELAY, 5⟩] .Importance =
        some (.ok [⟨⟨0, "a", 3 * SCHEDULE_DELAY, SCHEDULE_DELAY, 5⟩, SCHEDULE_DELAY⟩]))⟩

/-- C4: for every successful call with start instant `start`, every
returned entry is assigned at or after `start` plus the fixed one-minute
safety delay. -/
theorem C4_safety_delay {fuel : Nat} {start : Int} {tasks : List Task}
    {strategy : SchedulingStrategy} {sched : List ScheduledTask}
    (hdur : ∀ t ∈ tasks, 0 ≤ t.duration)
    (h : schedule fuel start tasks strategy = some (.ok sched)) :
    ∀ st ∈ sched, start + SCHEDULE_DELAY ≤ st.when := by
  obtain ⟨l', hinv, rfl, -⟩ := schedule_ok_sound h hdur
  intro st hst
  simp only [from_tree, List.mem_map] at hst
  obtain ⟨e, he, rfl⟩ := hst
  exact hinv.lb e he

theorem C4_safety_delay_witness :
    (∀ t ∈ [(⟨0, "a", 3 * SCHEDULE_DELAY, SCHEDULE_DELAY, 5⟩ : Task)], (0 : Int) ≤ t.duration) ∧
      ∀ st ∈ [(⟨⟨0, "a", 3 * SCHEDULE_DELAY, SCHEDULE_DELAY, 5⟩, SCHEDULE_DELAY⟩ :
        ScheduledTask)], (0 : Int) + SCHEDULE_DELAY ≤ st.when :=
  ⟨by decide, C4_safety_delay (by decide)
    (by decide :
      schedule 3 0 [⟨0, "a", 3 * SCHEDULE_DELAY, SCHEDULE_DELAY, 5⟩] .Importance =
        some (.ok [⟨⟨0, "a", 3 * SCHEDULE_DELAY, SCHEDULE_DELAY, 5⟩, SCHEDULE_DELAY⟩]))⟩

/-- C6: for every task set (with non-negative durations, as in the data model),
the phase-2 pull-forward loop of the importance strategy terminates: some
fuel bound suffices for `schedule` to return.  (With any failing task set
phase 1 aborts before the loop, so the statement covers exactly the
accepted ones non-trivially.) -/
theorem C6_phase2_terminates {start : Int} {tasks : List Task}
    (hdur : ∀ t ∈ tasks, 0 ≤ t.duration) :
    ∃ fuel, (schedule fuel start tasks .Importance).isSome := by
  obtain ⟨fuel, hf⟩ := @importance_terminates (start + SCHEDULE_DELAY)
    (wrapTasks 0 tasks)
    (fun t ht => hdur t.task (wrapTasks_mem_task ht))
    wrapTasks_idx_inj (wrapTasks_idx_nodup 0 tasks)
  refine ⟨fuel, ?_⟩
  simp only [schedule, Option.isSome_map']
  exact hf

theorem C6_phase2_terminates_witness :
    (∀ t ∈ [(⟨0, "a", 3 * SCHEDULE_DELAY, SCHEDULE_DELAY, 5⟩ : Task)], (0 : Int) ≤ t.duration) ∧
      ∃ fuel, (schedule fuel 0 [(⟨0, "a", 3 * SCHEDULE_DELAY, SCHEDULE_DELAY, 5⟩ : Task)]
        .Importance).isSome :=
  ⟨by decide, C6_phase2_terminates (by decide)⟩

/-- C9: scheduling an empty task list with either strategy returns the
empty schedule and never an error, for any fuel and start instant. -/
theorem C9_empty_input (fuel : Nat) (start : Int) (strategy : SchedulingStrategy) :
    schedule fuel start [] strategy = some (.ok []) := by
  cases strategy <;> rfl

/-- C5, counterexample: the claim predicts `DeadlineMissed(task, false)`
for a task whose deadline is after the start instant but unreachable, yet
on this input (deadline exactly one safety delay after the start, zero
duration) the code returns `DeadlineMissed(task, true)`: the code compares
the deadline against the *delayed* start, not the start instant itself. -/
theorem C5_counterexample :
    schedule 1 0 [(⟨0, "t", SCHEDULE_DELAY, 0, 5⟩ : Task)] .Importance =
        some (.error (.DeadlineMissed ⟨0, "t", SCHEDULE_DELAY, 0, 5⟩ true)) ∧
      (0 : Int) < (⟨0, "t", SCHEDULE_DELAY, 0, 5⟩ : Task).deadline ∧
      (⟨0, "t", SCHEDULE_DELAY, 0, 5⟩ : Task).deadline ≤
        0 + (⟨0, "t", SCHEDULE_DELAY, 0, 5⟩ : Task).duration + SCHEDULE_DELAY :=
  ⟨by decide, by decide, by decide⟩

/-- C5, amended: for a single task and either strategy, a task whose
deadline is at or before `start + SCHEDULE_DELAY` (the delayed start the
algorithms compare against) yields `DeadlineMissed(task, true)`, and one
whose deadline is after the delayed start but at or before
`start + SCHEDULE_DELAY + duration` yields `DeadlineMissed(task, false)`. -/
theorem C5_amended {fuel : Nat} {start : Int} {t : Task} {strategy : SchedulingStrategy}
    (hdur : 0 ≤ t.duration) :
    (t.deadline ≤ start + SCHEDULE_DELAY →
      schedule fuel start [t] strategy = some (.error (.DeadlineMissed t true))) ∧
    (start + SCHEDULE_DELAY < t.deadline →
      t.deadline ≤ start + SCHEDULE_DELAY + t.duration →
      schedule fuel start [t] strategy = some (.error (.DeadlineMissed t false))) := by
  have key : ∀ (b : Bool), decide (t.deadline ≤ start + SCHEDULE_DELAY) = b →
      t.deadline ≤ start + SCHEDULE_DELAY + t.duration →
      schedule fuel start [t] strategy = some (.error (.DeadlineMissed t b)) := by
    intro b hb hfeas
    have hp1 : ∀ (rt : RcTask), rt.task = t →
        phase1 (start + SCHEDULE_DELAY) [rt] [] =
          .error (.DeadlineMissed t b) := by
      intro rt hrt
      simp only [phase1, hrt]
      rw [if_pos (by omega), hb]
    cases strategy with
    | Importance =>
        simp only [schedule, schedule_according_to_importance, wrapTasks,
          List.insertionSort, List.orderedInsert]
        rw [hp1 ⟨0, t⟩ rfl]
        rfl
    | Urgency =>
        simp only [schedule, schedule_according_to_myrjam, wrapTasks,
          List.insertionSort, List.orderedInsert]
        rw [hp1 ⟨0, t⟩ rfl]
        rfl
  constructor
  · intro h1
    exact key true (by simpa using h1) (by omega)
  · intro h1 h2
    exact key false (by simpa using h1) h2

theorem C5_amended_witness :
    ((0 : Int) ≤ (⟨0, "w", SCHEDULE_DELAY - 1, 7, 5⟩ : Task).duration) ∧
      ((⟨0, "w", SCHEDULE_DELAY - 1, 7, 5⟩ : Task).deadline ≤ 0 + SCHEDULE_DELAY) ∧
      schedule 1 0 [(⟨0, "w", SCHEDULE_DELAY - 1, 7, 5⟩ : Task)] .Urgency =
        some (.error (.DeadlineMissed ⟨0, "w", SCHEDULE_DELAY - 1, 7, 5⟩ true)) :=
  ⟨by decide, by decide, (C5_amended (by decide)).1 (by decide)⟩

/-- C8: in phase 1 of the importance-first algorithm, the processing
order (the list phase 1 walks, produced by the stable sort on
`(importance, start - deadline)`) is ascending in importance, and among
tasks of equal importance an earlier deadline comes later. -/
theorem C8_phase1_processing_order (start : Int) (ts : List RcTask) :
    (List.insertionSort (impLe start) ts).Pairwise (fun a b =>
      a.task.importance < b.task.importance ∨
        (a.task.importance = b.task.importance ∧ b.task.deadline ≤ a.task.deadline)) := by
  have hs := List.sorted_insertionSort (impLe start) ts
  exact hs.imp (fun hab => by unfold impLe at hab; omega)

/-- C10: for either strategy, after a successful call, no task is
scheduled later than where phase 1 placed it: phase 2 only ever moves
tasks earlier. -/
theorem C10_phase2_monotone {fuel : Nat} {start : Int} {tasks : List Task}
    {strategy : SchedulingStrategy} {sched : List ScheduledTask}
    (hdur : ∀ t ∈ tasks, 0 ≤ t.duration)
    (h : schedule fuel start tasks strategy = some (.ok sched)) :
    ∃ l₁ l', phase1 (start + SCHEDULE_DELAY)
        (match strategy with
          | .Importance =>
              List.insertionSort (impLe (start + SCHEDULE_DELAY)) (wrapTasks 0 tasks)
          | .Urgency => List.insertionSort myrLe (wrapTasks 0 tasks)) [] = .ok l₁ ∧
      sched = from_tree l' ∧
      (∀ k s s', when_scheduled k l₁ = some s → when_scheduled k l' = some s' → s' ≤ s) := by
  have hdur' : ∀ t ∈ wrapTasks 0 tasks, 0 ≤ t.task.duration :=
    fun t ht => hdur t.task (wrapTasks_mem_task ht)
  have hnd := wrapTasks_idx_nodup 0 tasks
  cases strategy with
  | Importance =>
      simp only [schedule] at h
      rw [Option.map_eq_some'] at h
      obtain ⟨r, hr, hmap⟩ := h
      cases r with
      | error e => exact absurd hmap (by simp [Except.map])
      | ok l' =>
          obtain ⟨hinv, hperm, l₁, hp1, hperm₁, hlater⟩ :=
            importance_sound hr hdur' (@wrapTasks_idx_inj 0 tasks) hnd
          exact ⟨l₁, l', hp1, by simpa [Except.map] using hmap.symm, hlater⟩
  | Urgency =>
      simp only [schedule, Option.some_inj] at h
      cases hr : schedule_according_to_myrjam (start + SCHEDULE_DELAY) (wrapTasks 0 tasks) with
      | error e => rw [hr] at h; exact absurd h (by simp [Except.map])
      | ok l' =>
          rw [hr] at h
          obtain ⟨hinv, hperm, l₁, hp1, hperm₁, hlater⟩ := myrjam_sound hr hdur' hnd
          exact ⟨l₁, l', hp1, by simpa [Except.map] using h.symm, hlater⟩

theorem C10_phase2_monotone_witness :
    (∀ t ∈ [(⟨0, "a", 3 * SCHEDULE_DELAY, SCHEDULE_DELAY, 5⟩ : Task)], (0 : Int) ≤ t.duration) ∧
      ∃ l₁ l', phase1 (0 + SCHEDULE_DELAY)
          (List.insertionSort (impLe (0 + SCHEDULE_DELAY))
            (wrapTasks 0 [⟨0, "a", 3 * SCHEDULE_DELAY, SCHEDULE_DELAY, 5⟩])) [] = .ok l₁ ∧
        [(⟨⟨0, "a", 3 * SCHEDULE_DELAY, SCHEDULE_DELAY, 5⟩, SCHEDULE_DELAY⟩ : ScheduledTask)] =
          from_tree l' ∧
        (∀ k s s', when_scheduled k l₁ = some s → when_scheduled k l' = some s' → s' ≤ s) :=
  ⟨by decide, C10_phase2_monotone (by decide)
    (by decide :
      schedule 3 0 [⟨0, "a", 3 * SCHEDULE_DELAY, SCHEDULE_DELAY, 5⟩] .Importance =
        some (.ok [⟨⟨0, "a", 3 * SCHEDULE_DELAY, SCHEDULE_DELAY, 5⟩, SCHEDULE_DELAY⟩]))⟩

/-- C7, counterexample: with a zero-duration task the claim fails.  Phase 1
places task A before task Z, but the compacting pass re-places the
zero-duration Z at the boundary gap at the very start (per the spec, a
zero duration always fits an empty gap at a boundary, and close-after
takes the earliest gap), so the final schedule lists Z before A. -/
theorem C7_counterexample :
    (schedule 1 0 [(⟨0, "A", SCHEDULE_DELAY + 10, 3, 1⟩ : Task),
        ⟨1, "Z", SCHEDULE_DELAY + 10, 0, 2⟩] .Urgency).map
      (·.map (List.map (fun st => st.task))) =
        some (.ok [⟨1, "Z", SCHEDULE_DELAY + 10, 0, 2⟩, ⟨0, "A", SCHEDULE_DELAY + 10, 3, 1⟩]) ∧
      (phase1 (0 + SCHEDULE_DELAY)
        (List.insertionSort myrLe (wrapTasks 0 [(⟨0, "A", SCHEDULE_DELAY + 10, 3, 1⟩ : Task),
          ⟨1, "Z", SCHEDULE_DELAY + 10, 0, 2⟩])) []).map (List.map (fun e => e.data.task)) =
        .ok [⟨0, "A", SCHEDULE_DELAY + 10, 3, 1⟩, ⟨1, "Z", SCHEDULE_DELAY + 10, 0, 2⟩] ∧
      ((⟨1, "Z", SCHEDULE_DELAY + 10, 0, 2⟩ : Task) ≠ ⟨0, "A", SCHEDULE_DELAY + 10, 3, 1⟩) :=
  ⟨by decide, by decide, by decide⟩

/-- C7, amended: under the Urgency strategy, for every task set with
positive durations on which scheduling succeeds, the order of tasks in
the final schedule equals their order after phase 1 (zero-duration tasks
can jump to an earlier boundary in the compacting pass). -/
theorem C7_amended {fuel : Nat} {start : Int} {tasks : List Task} {sched : List ScheduledTask}
    (hpos : ∀ t ∈ tasks, 0 < t.duration)
    (h : schedule fuel start tasks .Urgency = some (.ok sched)) :
    ∃ l₁, phase1 (start + SCHEDULE_DELAY)
        (List.insertionSort myrLe (wrapTasks 0 tasks)) [] = .ok l₁ ∧
      sched.map (fun st => st.task) = l₁.map (fun e => e.data.task) := by
  have hdur' : ∀ t ∈ wrapTasks 0 tasks, 0 ≤ t.task.duration :=
    fun t ht => le_of_lt (hpos t.task (wrapTasks_mem_task ht))
  have hnd := wrapTasks_idx_nodup 0 tasks
  have hsp : List.Perm (List.insertionSort myrLe (wrapTasks 0 tasks)) (wrapTasks 0 tasks) :=
    List.perm_insertionSort _ _
  simp only [schedule, Option.some_inj] at h
  cases hr : schedule_according_to_myrjam (start + SCHEDULE_DELAY) (wrapTasks 0 tasks) with
  | error e => rw [hr] at h; exact absurd h (by simp [Except.map])
  | ok l' =>
      rw [hr] at h
      have hsched : sched = from_tree l' := by simpa [Except.map] using h.symm
      simp only [schedule_according_to_myrjam] at hr
      cases hp1 : phase1 (start + SCHEDULE_DELAY)
          (List.insertionSort myrLe (wrapTasks 0 tasks)) [] with
      | error e => rw [hp1] at hr; exact absurd hr (by simp)
      | ok l₁ =>
          rw [hp1] at hr
          simp only at hr
          have hinv₀ : Inv (start + SCHEDULE_DELAY) ([] : List Entry) :=
            ⟨by simp, by simp, by simp, by simp, by simp, by simp⟩
          obtain ⟨hinv₁, hperm₁⟩ := phase1_sound hp1 hinv₀
            (fun t ht => hdur' t (hsp.mem_iff.mp ht))
            (by
              have := (hsp.map (fun t => t.idx)).nodup_iff.mpr hnd
              simpa using this)
          have hperm₁' : List.Perm (payloads l₁) (wrapTasks 0 tasks) := by
            refine hperm₁.trans ?_
            simpa using hsp
          have hposE : ∀ e ∈ l₁, e.start < e.stop := by
            intro e he
            have hw := hinv₁.width e he
            have hd : e.data ∈ payloads l₁ := List.mem_map_of_mem _ he
            have : 0 < e.data.task.duration :=
              hpos e.data.task (wrapTasks_mem_task (hperm₁'.mem_iff.mp hd))
            omega
          have hpack := myrjamPass_packed (s := l₁) (P := [])
            (by simpa using hr)
            trivial
            hinv₁.pw
            hinv₁.width
            hposE
            (fun y hy => hinv₁.lb y (List.mem_of_mem_head? hy))
            (by simpa using hinv₁.nodup)
          refine ⟨l₁, rfl, ?_⟩
          rw [hsched, hpack]
          simp only [List.nil_append, from_tree, List.map_map]
          have hmd := packList_map_data (packEnd (start + SCHEDULE_DELAY) []) l₁
          have := congrArg (List.map (fun d : RcTask => d.task)) hmd
          simpa [List.map_map, Function.comp_def] using this

theorem C7_amended_witness :
    (∀ t ∈ [(⟨0, "a", 3 * SCHEDULE_DELAY, SCHEDULE_DELAY, 5⟩ : Task)], (0 : Int) < t.duration) ∧
      ∃ l₁, phase1 (0 + SCHEDULE_DELAY)
          (List.insertionSort myrLe
            (wrapTasks 0 [⟨0, "a", 3 * SCHEDULE_DELAY, SCHEDULE_DELAY, 5⟩])) [] = .ok l₁ ∧
        ([(⟨⟨0, "a", 3 * SCHEDULE_DELAY, SCHEDULE_DELAY, 5⟩, SCHEDULE_DELAY⟩ :
          ScheduledTask)].map (fun st => st.task)) = l₁.map (fun e => e.data.task) :=
  ⟨by decide, C7_amended (by decide)
    (by decide :
      schedule 1 0 [⟨0, "a", 3 * SCHEDULE_DELAY, SCHEDULE_DELAY, 5⟩] .Urgency =
        some (.ok [⟨⟨0, "a", 3 * SCHEDULE_DELAY, SCHEDULE_DELAY, 5⟩, SCHEDULE_DELAY⟩]))⟩

end Eva
